import Mathlib

/-!
Verification of the `intlist` package: a parser for a comma-separated
integer-list notation with ellipsis ranges (e.g. "4,12...8,-3"), and the
iterator protocol over it.

Go strings are embedded as `List Char`; Go `int` (64-bit platform) as `Int`
with explicit bounds checks where the source checks them (`strconv.Atoi`);
Go's panics as the `Except.error` branch of `Next`; the Go `error` values
`*strconv.NumError{ErrSyntax}` / `*strconv.NumError{ErrRange}` / `ErrDone`
as the inductives `NumErr` and `IterErr` below.
-/

namespace Intlist

/-- Error kinds of Go `strconv`: `ErrSyntax` and `ErrRange`. -/
inductive NumErr where
  | errSyn
  | errRange
deriving DecidableEq

instance {ε α : Type} [DecidableEq ε] [DecidableEq α] :
    DecidableEq (Except ε α) := fun a b =>
  match a, b with
  | Except.ok x, Except.ok y =>
    if h : x = y then Decidable.isTrue (by rw [h]) else Decidable.isFalse (by simp [h])
  | Except.ok _, Except.error _ => Decidable.isFalse (by simp)
  | Except.error _, Except.ok _ => Decidable.isFalse (by simp)
  | Except.error x, Except.error y =>
    if h : x = y then Decidable.isTrue (by rw [h]) else Decidable.isFalse (by simp [h])

/-- Largest Go `int` on a 64-bit platform. -/
def intMax : Int := 2 ^ 63 - 1

/-- Smallest Go `int` on a 64-bit platform. -/
def intMin : Int := -(2 ^ 63)

/-- Accumulate the value of a run of decimal digits; `none` on a non-digit.
Mirrors the digit loop of `strconv.Atoi` / `strconv.ParseUint` (base 10,
underscores rejected since the base is given explicitly). -/
def digitsToNat : Nat → List Char → Option Nat
  | n, [] => some n
  | n, c :: rest =>
    if c.isDigit then digitsToNat (n * 10 + (c.toNat - 48)) rest else none

/-- Embedding of Go `strconv.Atoi`: optional leading sign ('+' or '-'),
then one or more decimal digits; syntax error otherwise; range error when
the value does not fit a 64-bit `int`. -/
def Atoi (s : List Char) : Except NumErr Int :=
  match s with
  | [] => Except.error NumErr.errSyn
  | c :: rest =>
    let p : Bool × List Char :=
      if c = '-' then (true, rest)
      else if c = '+' then (false, rest)
      else (false, s)
    match p.2 with
    | [] => Except.error NumErr.errSyn
    | d :: ds =>
      match digitsToNat 0 (d :: ds) with
      | none => Except.error NumErr.errSyn
      | some n =>
        let v : Int := if p.1 then -(n : Int) else (n : Int)
        if v < intMin ∨ intMax < v then Except.error NumErr.errRange
        else Except.ok v

/-- Embedding of Go `strings.Split(s, ",")` (accumulator form). -/
def splitCommaAux : List Char → List Char → List (List Char)
  | acc, [] => [acc.reverse]
  | acc, c :: rest =>
    if c = ',' then acc.reverse :: splitCommaAux [] rest
    else splitCommaAux (c :: acc) rest

/-- Embedding of Go `strings.Split(s, ",")`. -/
def splitComma (s : List Char) : List (List Char) := splitCommaAux [] s

/-- Embedding of Go `strings.Split(s, "...")`: leftmost, non-overlapping
occurrences of the three-dot separator. -/
def splitEllipsisAux : List Char → List Char → List (List Char)
  | acc, '.' :: '.' :: '.' :: rest => acc.reverse :: splitEllipsisAux [] rest
  | acc, c :: rest => splitEllipsisAux (c :: acc) rest
  | acc, [] => [acc.reverse]

/-- Embedding of Go `strings.Split(s, "...")`. -/
def splitEllipsis (s : List Char) : List (List Char) := splitEllipsisAux [] s

/-- The `seq` struct of the source: a single integer (`next = last`) or an
inclusive run. `step` keeps the Go zero value 0 for single integers. -/
structure Seq where
  next : Int
  last : Int
  step : Int
deriving DecidableEq

/-- The `error` slot of an `Iterator`: either a parse failure recorded by
`NewIterator` (a `strconv` error kind) or the `ErrDone` sentinel. -/
inductive IterErr where
  | parseErr (k : NumErr)
  | done
deriving DecidableEq

/-- The `Iterator` struct of the source. `err = none` embeds Go `err == nil`. -/
structure Iterator where
  seqs : List Seq
  err : Option IterErr
deriving DecidableEq

/-- The per-item `switch len(parts)` body of `NewIterator`: one piece is a
single integer (`step` keeps the zero value 0), two pieces set the direction,
anything else is a syntax error. -/
def parseItem (item : List Char) : Except NumErr Seq :=
  match splitEllipsis item with
  | [p] =>
    match Atoi p with
    | Except.error e => Except.error e
    | Except.ok v => Except.ok { next := v, last := v, step := 0 }
  | [p1, p2] =>
    match Atoi p1 with
    | Except.error e => Except.error e
    | Except.ok a =>
      match Atoi p2 with
      | Except.error e => Except.error e
      | Except.ok b =>
        Except.ok { next := a, last := b, step := if a < b then 1 else -1 }
  | _ => Except.error NumErr.errSyn

/-- The item loop of `NewIterator`: parse items left to right, stopping at
the first error. -/
def buildSeqs : List (List Char) → Except NumErr (List Seq)
  | [] => Except.ok []
  | item :: rest =>
    match parseItem item with
    | Except.error e => Except.error e
    | Except.ok s =>
      match buildSeqs rest with
      | Except.error e => Except.error e
      | Except.ok ss => Except.ok (s :: ss)

/-- Embedding of `NewIterator`: split on commas, special-case the exactly
empty specification, otherwise build descriptors; on error the descriptor
list is discarded (`seqs = nil` in the source). -/
def NewIterator (spec : List Char) : Iterator :=
  let items := splitComma spec
  if items = [[]] then { seqs := [], err := none }
  else
    match buildSeqs items with
    | Except.ok ss => { seqs := ss, err := none }
    | Except.error e => { seqs := [], err := some (IterErr.parseErr e) }

/-- The panic message of `Next` on an invalid iterator. -/
def msgInvalid : String := "Next() called on invalid iterator."

/-- The panic message of `Next` after completion. -/
def msgAfterDone : String := "Next() called again after returning ErrDone."

/-- Embedding of `(*Iterator).Next`. A Go panic is the `Except.error` branch
(carrying the panic message); a normal return carries the returned pair
`(int, error)` together with the mutated iterator. -/
def Next (i : Iterator) : Except String ((Int × Option IterErr) × Iterator) :=
  match i.err with
  | some IterErr.done => Except.error msgAfterDone
  | some (IterErr.parseErr _) => Except.error msgInvalid
  | none =>
    match i.seqs with
    | [] => Except.ok ((0, some IterErr.done), { i with err := some IterErr.done })
    | s :: rest =>
      if s.next = s.last then
        Except.ok ((s.next, none), { i with seqs := rest })
      else
        Except.ok ((s.next, none),
          { i with seqs := { s with next := s.next + s.step } :: rest })

/-- Embedding of `(*Iterator).Err`: a pure read of the error slot. -/
def Err (i : Iterator) : Option IterErr := i.err

/-- Number of integers a descriptor still denotes (when well formed). -/
def seqLen (s : Seq) : Nat := (s.last - s.next).natAbs + 1

/-- Number of integers an iterator still denotes (when well formed). -/
def itMeasure (i : Iterator) : Nat := (i.seqs.map seqLen).sum

/-- The collection loop of `Parse`, with explicit fuel standing for the
number of `Next` calls the Go loop makes: break on `ErrDone`, otherwise
append the value; `none` embeds a non-returning loop (panic or exhausted
fuel), which claim C9 proves unreachable from `Parse`. -/
def collectFuel : Nat → Iterator → Option (List Int)
  | 0, _ => none
  | Nat.succ fuel, i =>
    match Next i with
    | Except.error _ => none
    | Except.ok ((v, e), i2) =>
      if e = some IterErr.done then some []
      else
        match collectFuel fuel i2 with
        | none => none
        | some vs => some (v :: vs)

/-- Embedding of `Parse`: result pair `([]int, error)`; the first component
`none` embeds a `nil` slice, `some []` the non-nil empty slice the source
initializes. Fuel `itMeasure + 1` covers one `Next` call per denoted integer
plus the final completing call. -/
def Parse (spec : List Char) : Option (List Int) × Option IterErr :=
  let it := NewIterator spec
  match Err it with
  | some e => (none, some e)
  | none =>
    match collectFuel (itMeasure it + 1) it with
    | some vs => (some vs, none)
    | none => (none, none)

/-- Convert a string literal to the embedded representation. -/
def toChars (s : String) : List Char := s.data

/-- The inclusive run from `a` to `b`, in the direction given by the order
of the endpoints: the specification-side meaning of a range item. -/
def emitRun (a b : Int) : List Int :=
  if a ≤ b then (List.range ((b - a).toNat + 1)).map (fun k : Nat => a + (k : Int))
  else (List.range ((a - b).toNat + 1)).map (fun k : Nat => a - (k : Int))

/-- Well-formed descriptor: `next` already at `last`, or `step` pointing
from `next` toward `last`. Every descriptor `NewIterator` builds satisfies
this, and `Next` preserves it. -/
def GoodSeq (s : Seq) : Prop :=
  s.next = s.last ∨ (s.next < s.last ∧ s.step = 1) ∨ (s.last < s.next ∧ s.step = -1)

instance (s : Seq) : Decidable (GoodSeq s) := by
  unfold GoodSeq
  infer_instance

/-- The first parse error among a list of items, in left-to-right order. -/
def firstErr : List (List Char) → Option NumErr
  | [] => none
  | item :: rest =>
    match parseItem item with
    | Except.error e => some e
    | Except.ok _ => firstErr rest

lemma emitRun_self (a : Int) : emitRun a a = [a] := by
  unfold emitRun
  rw [if_pos le_rfl]
  simp [List.range_succ]

lemma emitRun_lt (a b : Int) (h : a < b) : emitRun a b = a :: emitRun (a + 1) b := by
  unfold emitRun
  rw [if_pos h.le, if_pos (by omega : a + 1 ≤ b)]
  have hn : (b - a).toNat + 1 = ((b - (a + 1)).toNat + 1) + 1 := by omega
  rw [hn, List.range_succ_eq_map, List.map_cons, List.map_map]
  congr 1
  · simp
  · apply List.map_congr_left
    intro k _
    simp [Function.comp, Nat.succ_eq_add_one]
    omega

lemma emitRun_gt (a b : Int) (h : b < a) : emitRun a b = a :: emitRun (a - 1) b := by
  rcases eq_or_lt_of_le (by omega : b ≤ a - 1) with heq | hlt
  · subst heq
    rw [emitRun_self]
    unfold emitRun
    rw [if_neg (by omega : ¬ (a ≤ a - 1))]
    have hn : (a - (a - 1)).toNat + 1 = 2 := by omega
    rw [hn]
    simp [List.range_succ]
  · unfold emitRun
    rw [if_neg (by omega : ¬ (a ≤ b)), if_neg (by omega : ¬ (a - 1 ≤ b))]
    have hn : (a - b).toNat + 1 = ((a - 1 - b).toNat + 1) + 1 := by omega
    rw [hn, List.range_succ_eq_map, List.map_cons, List.map_map]
    congr 1
    · simp
    · apply List.map_congr_left
      intro k _
      simp [Function.comp, Nat.succ_eq_add_one]
      omega

lemma emitRun_length (a b : Int) : (emitRun a b).length = (b - a).natAbs + 1 := by
  unfold emitRun
  split
  · rename_i hab
    simp
    omega
  · rename_i hab
    simp
    omega

lemma goodSeq_mk (a b : Int) :
    GoodSeq { next := a, last := b, step := if a < b then 1 else -1 } := by
  unfold GoodSeq
  by_cases hab : a < b
  · exact Or.inr (Or.inl ⟨hab, if_pos hab⟩)
  · rcases eq_or_lt_of_le (not_lt.mp hab) with heq | hlt
    · exact Or.inl heq.symm
    · exact Or.inr (Or.inr ⟨hlt, if_neg hab⟩)

lemma parseItem_good (item : List Char) (s : Seq) (h : parseItem item = Except.ok s) :
    GoodSeq s := by
  unfold parseItem at h
  split at h
  · split at h
    · exact absurd h (by simp)
    · simp at h
      subst h
      exact Or.inl rfl
  · split at h
    · exact absurd h (by simp)
    · split at h
      · exact absurd h (by simp)
      · simp at h
        subst h
        exact goodSeq_mk _ _
  · exact absurd h (by simp)

lemma buildSeqs_good (items : List (List Char)) (ss : List Seq)
    (h : buildSeqs items = Except.ok ss) : ∀ s ∈ ss, GoodSeq s := by
  induction items generalizing ss with
  | nil =>
    simp [buildSeqs] at h
    subst h
    simp
  | cons item rest ih =>
    unfold buildSeqs at h
    split at h
    · exact absurd h (by simp)
    · split at h
      · exact absurd h (by simp)
      · simp at h
        subst h
        intro s hs
        rcases List.mem_cons.mp hs with h1 | h2
        · subst h1
          exact parseItem_good item s (by assumption)
        · exact ih _ (by assumption) s h2

/-- Case analysis of `NewIterator`: the empty-specification special case,
successful construction, or failed construction with the descriptors
discarded. -/
lemma newIterator_eq (spec : List Char) :
    (splitComma spec = [[]] ∧ NewIterator spec = { seqs := [], err := none }) ∨
    (splitComma spec ≠ [[]] ∧
      ((∃ ss, buildSeqs (splitComma spec) = Except.ok ss ∧
          NewIterator spec = { seqs := ss, err := none }) ∨
       (∃ e, buildSeqs (splitComma spec) = Except.error e ∧
          NewIterator spec = { seqs := [], err := some (IterErr.parseErr e) }))) := by
  by_cases hsp : splitComma spec = [[]]
  · left
    refine ⟨hsp, ?_⟩
    simp only [NewIterator]
    rw [if_pos hsp]
  · right
    refine ⟨hsp, ?_⟩
    cases hb : buildSeqs (splitComma spec) with
    | ok ss =>
      left
      exact ⟨ss, rfl, by simp only [NewIterator]; rw [if_neg hsp, hb]⟩
    | error e =>
      right
      exact ⟨e, rfl, by simp only [NewIterator]; rw [if_neg hsp, hb]⟩

lemma newIterator_err_none (spec : List Char) (h : (NewIterator spec).err = none) :
    ∀ s ∈ (NewIterator spec).seqs, GoodSeq s := by
  rcases newIterator_eq spec with ⟨hsp, hni⟩ | ⟨hsp, ⟨ss, hb, hni⟩ | ⟨e, hb, hni⟩⟩
  · rw [hni]
    simp
  · rw [hni]
    simpa using buildSeqs_good _ _ hb
  · rw [hni] at h
    simp at h

/-- Direction facts for a well-formed, unexhausted descriptor. -/
lemma goodSeq_step (s : Seq) (hg : GoodSeq s) (hne : s.next ≠ s.last) :
    (s.next < s.last ∧ s.step = 1) ∨ (s.last < s.next ∧ s.step = -1) := by
  rcases hg with h | h | h
  · exact absurd h hne
  · exact Or.inl h
  · exact Or.inr h

/-- Stepping a well-formed, unexhausted descriptor keeps it well formed and
moves `next` strictly closer to `last`. -/
lemma goodSeq_advance (s : Seq) (hg : GoodSeq s) (hne : s.next ≠ s.last) :
    GoodSeq { s with next := s.next + s.step } ∧
      (s.last - (s.next + s.step)).natAbs < (s.last - s.next).natAbs := by
  rcases goodSeq_step s hg hne with ⟨hlt, hstep⟩ | ⟨hlt, hstep⟩
  · constructor
    · rcases eq_or_lt_of_le (by omega : s.next + s.step ≤ s.last) with heq | hlt2
      · exact Or.inl heq
      · exact Or.inr (Or.inl ⟨hlt2, hstep⟩)
    · omega
  · constructor
    · rcases eq_or_lt_of_le (by omega : s.last ≤ s.next + s.step) with heq | hlt2
      · exact Or.inl heq.symm
      · exact Or.inr (Or.inr ⟨hlt2, hstep⟩)
    · omega

/-- Adequacy of the collection loop: with any fuel exceeding the number of
denoted integers, the loop completes and returns exactly the concatenation
of the runs denoted by the pending descriptors, in order. -/
lemma collect_adequate (f : Nat) : ∀ ss : List Seq, (∀ s ∈ ss, GoodSeq s) →
    (ss.map seqLen).sum < f →
    collectFuel f { seqs := ss, err := none } =
      some ((ss.map fun s => emitRun s.next s.last).flatten) := by
  induction f with
  | zero =>
    intro ss _ hm
    omega
  | succ f ih =>
    intro ss hg hm
    match ss with
    | [] =>
      simp [collectFuel, Next]
    | s :: rest =>
      have hgs : GoodSeq s := hg s (List.mem_cons_self s rest)
      have hgrest : ∀ t ∈ rest, GoodSeq t := fun t ht => hg t (List.mem_cons_of_mem s ht)
      by_cases heq : s.next = s.last
      · have hstep : collectFuel (f + 1) { seqs := s :: rest, err := none } =
            match collectFuel f { seqs := rest, err := none } with
            | none => none
            | some vs => some (s.next :: vs) := by
          simp [collectFuel, Next, heq]
        have hm2 : (rest.map seqLen).sum < f := by
          simp only [List.map_cons, List.sum_cons, seqLen] at hm
          omega
        have hrun : emitRun s.next s.last = [s.next] := by
          rw [heq]
          exact emitRun_self s.last
        rw [hstep, ih rest hgrest hm2, List.map_cons, List.flatten_cons, hrun]
        rfl
      · have hstep : collectFuel (f + 1) { seqs := s :: rest, err := none } =
            match collectFuel f
                { seqs := { s with next := s.next + s.step } :: rest, err := none } with
            | none => none
            | some vs => some (s.next :: vs) := by
          simp [collectFuel, Next, heq]
        obtain ⟨hgood2, hdec⟩ := goodSeq_advance s hgs heq
        have hm2 : (({ s with next := s.next + s.step } :: rest).map seqLen).sum < f := by
          simp only [List.map_cons, List.sum_cons, seqLen] at hm ⊢
          omega
        have hrun : emitRun s.next s.last = s.next :: emitRun (s.next + s.step) s.last := by
          rcases goodSeq_step s hgs heq with ⟨hlt, hstep1⟩ | ⟨hlt, hstep1⟩
          · rw [hstep1]
            exact emitRun_lt _ _ hlt
          · rw [hstep1]
            rw [show s.next + (-1 : Int) = s.next - 1 from by ring]
            exact emitRun_gt _ _ hlt
        rw [hstep, ih _ (by
          intro t ht
          rcases List.mem_cons.mp ht with h1 | h2
          · subst h1
            exact hgood2
          · exact hgrest t h2) hm2]
        simp only [List.map_cons, List.flatten_cons]
        rw [hrun]
        rfl

/-- `Parse` on a specification whose construction succeeded. -/
lemma parse_ok (spec : List Char) (h : (NewIterator spec).err = none) :
    Parse spec =
      (some (((NewIterator spec).seqs.map fun s => emitRun s.next s.last).flatten), none) := by
  rcases newIterator_eq spec with ⟨hsp, hni⟩ | ⟨hsp, ⟨ss, hb, hni⟩ | ⟨e, hb, hni⟩⟩
  · simp only [Parse, Err]
    rw [hni]
    simp [collectFuel, Next, itMeasure]
  · simp only [Parse, Err]
    rw [hni]
    rw [show collectFuel (itMeasure { seqs := ss, err := none } + 1)
          { seqs := ss, err := none } =
        some ((ss.map fun s => emitRun s.next s.last).flatten) from
      collect_adequate _ ss (buildSeqs_good _ _ hb) (by simp [itMeasure])]
  · rw [hni] at h
    simp at h

/-- `Parse` on a specification whose construction failed. -/
lemma parse_err (spec : List Char) (e : IterErr)
    (h : (NewIterator spec).err = some e) : Parse spec = (none, some e) := by
  simp only [Parse, Err]
  rw [h]

lemma parseItem_one (item p : List Char) (v : Int)
    (hsp : splitEllipsis item = [p]) (hv : Atoi p = Except.ok v) :
    parseItem item = Except.ok { next := v, last := v, step := 0 } := by
  simp [parseItem, hsp, hv]

lemma parseItem_two (item p1 p2 : List Char) (a b : Int)
    (hsp : splitEllipsis item = [p1, p2]) (ha : Atoi p1 = Except.ok a)
    (hb : Atoi p2 = Except.ok b) :
    parseItem item =
      Except.ok { next := a, last := b, step := if a < b then 1 else -1 } := by
  simp [parseItem, hsp, ha, hb]

/-- The error `buildSeqs` stops at is the first item error in left-to-right
order. -/
lemma buildSeqs_error (items : List (List Char)) (e : NumErr)
    (h : buildSeqs items = Except.error e) : firstErr items = some e := by
  induction items with
  | nil => simp [buildSeqs] at h
  | cons item rest ih =>
    unfold buildSeqs at h
    cases hp : parseItem item with
    | error e2 =>
      rw [hp] at h
      simp at h
      simp [firstErr, hp, h]
    | ok s =>
      rw [hp] at h
      cases hb : buildSeqs rest with
      | error e2 =>
        rw [hb] at h
        simp at h
        subst h
        simp [firstErr, hp]
        exact ih hb
      | ok ss =>
        rw [hb] at h
        simp at h

lemma iterator_eta (i : Iterator) (h : i.err = none) :
    i = { seqs := i.seqs, err := none } := by
  cases i
  simp_all

/-- Converse of `buildSeqs_error`: an item error makes `buildSeqs` stop
with the first one. -/
lemma firstErr_buildSeqs (items : List (List Char)) (e : NumErr)
    (h : firstErr items = some e) : buildSeqs items = Except.error e := by
  induction items with
  | nil => simp [firstErr] at h
  | cons item rest ih =>
    unfold firstErr at h
    cases hp : parseItem item with
    | error e2 =>
      rw [hp] at h
      simp at h
      simp [buildSeqs, hp, h]
    | ok s =>
      rw [hp] at h
      simp at h
      simp [buildSeqs, hp, ih h]

lemma next_invalid (seqs : List Seq) (k : NumErr) :
    Next { seqs := seqs, err := some (IterErr.parseErr k) } =
      Except.error msgInvalid := rfl

lemma next_done (seqs : List Seq) :
    Next { seqs := seqs, err := some IterErr.done } = Except.error msgAfterDone := rfl

lemma next_nil :
    Next { seqs := [], err := none } =
      Except.ok ((0, some IterErr.done), { seqs := [], err := some IterErr.done }) := rfl

lemma next_cons (s : Seq) (rest : List Seq) :
    Next { seqs := s :: rest, err := none } =
      if s.next = s.last then
        Except.ok ((s.next, none), { seqs := rest, err := none })
      else
        Except.ok ((s.next, none),
          { seqs := { s with next := s.next + s.step } :: rest, err := none }) := rfl

/-- Claim C1: for every valid specification the integers are emitted as the
concatenation, in left-to-right item order, of the inclusive runs of the
descriptors (from first endpoint to second, ascending or descending); a
range item `a...b` yields the descriptor with endpoints `a` and `b`; and
`Parse "-1...2,6...4"` returns `[-1, 0, 1, 2, 6, 5, 4]` with no error. -/
theorem claim1 :
    (∀ spec : List Char, (NewIterator spec).err = none →
        Parse spec =
          (some (((NewIterator spec).seqs.map fun s => emitRun s.next s.last).flatten),
            none))
    ∧ (∀ item p1 p2 : List Char, ∀ a b : Int,
        splitEllipsis item = [p1, p2] → Atoi p1 = Except.ok a → Atoi p2 = Except.ok b →
        ∃ st : Int, parseItem item = Except.ok { next := a, last := b, step := st })
    ∧ Parse (toChars "-1...2,6...4") = (some [-1, 0, 1, 2, 6, 5, 4], none) := by
  refine ⟨parse_ok, ?_, by decide⟩
  intro item p1 p2 a b hsp ha hb
  exact ⟨_, parseItem_two item p1 p2 a b hsp ha hb⟩

theorem claim1_witness :
    Parse (toChars "6...9") =
      (some (((NewIterator (toChars "6...9")).seqs.map fun s =>
          emitRun s.next s.last).flatten), none) :=
  claim1.1 (toChars "6...9") (by decide)

/-- Claim C2: `Parse` returns either the full sequence with no error, or
the construction-time error with a nil sequence — never both, never a
partial sequence on error. -/
theorem claim2 (spec : List Char) :
    ((NewIterator spec).err = none ∧ ∃ vs : List Int, Parse spec = (some vs, none)) ∨
    (∃ e : IterErr, (NewIterator spec).err = some e ∧ Parse spec = (none, some e)) := by
  cases h : (NewIterator spec).err with
  | none => exact Or.inl ⟨rfl, _, parse_ok spec h⟩
  | some e => exact Or.inr ⟨e, rfl, parse_err spec e h⟩

/-- Claim C3: `Next` on an iterator whose error slot holds a validation
failure panics with the invalid-iterator message, `Next` after completion
panics with the after-done message, and the two messages are distinct;
neither case is a returned error value (both are the panic branch of the
embedding, not `Except.ok`). -/
theorem claim3 :
    (∀ i : Iterator, ∀ k : NumErr, i.err = some (IterErr.parseErr k) →
        Next i = Except.error msgInvalid)
    ∧ (∀ i : Iterator, i.err = some IterErr.done → Next i = Except.error msgAfterDone)
    ∧ msgInvalid ≠ msgAfterDone := by
  refine ⟨?_, ?_, by decide⟩
  · intro i k h
    unfold Next
    rw [h]
  · intro i h
    unfold Next
    rw [h]

theorem claim3_witness :
    Next (NewIterator (toChars "2.3")) = Except.error msgInvalid ∧
      Next { seqs := [], err := some IterErr.done } = Except.error msgAfterDone :=
  ⟨claim3.1 _ NumErr.errSyn (by decide), claim3.2.1 _ rfl⟩

/-- Claim C4: when construction fails, the resulting iterator holds zero
descriptors and records the first (leftmost) item error; syntax errors
(malformed integer, malformed range, empty item) and range errors
(out-of-range integer) are distinguishable kinds. -/
theorem claim4 :
    (∀ spec : List Char, ∀ e : NumErr,
        (NewIterator spec).err = some (IterErr.parseErr e) →
        (NewIterator spec).seqs = [] ∧ firstErr (splitComma spec) = some e)
    ∧ (∀ spec : List Char, ∀ e : NumErr,
        splitComma spec ≠ [[]] → firstErr (splitComma spec) = some e →
        (NewIterator spec).err = some (IterErr.parseErr e) ∧
          (NewIterator spec).seqs = [])
    ∧ (NewIterator (toChars "12a")).err = some (IterErr.parseErr NumErr.errSyn)
    ∧ (NewIterator (toChars "-2...-4...-6,12")).err =
        some (IterErr.parseErr NumErr.errSyn)
    ∧ (NewIterator (toChars "1,,2")).err = some (IterErr.parseErr NumErr.errSyn)
    ∧ (NewIterator (toChars "9223372036854775808")).err =
        some (IterErr.parseErr NumErr.errRange)
    ∧ NumErr.errSyn ≠ NumErr.errRange := by
  refine ⟨?_, ?_, by decide, by decide, by decide, by decide, by decide⟩
  · intro spec e h
    rcases newIterator_eq spec with ⟨hsp, hni⟩ | ⟨hsp, ⟨ss, hb, hni⟩ | ⟨e2, hb, hni⟩⟩
    · rw [hni] at h
      simp at h
    · rw [hni] at h
      simp at h
    · rw [hni] at h ⊢
      simp at h
      subst h
      exact ⟨rfl, buildSeqs_error _ _ hb⟩
  · intro spec e hne hfe
    rcases newIterator_eq spec with ⟨hsp, hni⟩ | ⟨hsp, ⟨ss, hb, hni⟩ | ⟨e2, hb, hni⟩⟩
    · exact absurd hsp hne
    · rw [firstErr_buildSeqs _ _ hfe] at hb
      exact absurd hb (by simp)
    · rw [firstErr_buildSeqs _ _ hfe] at hb
      have he2 : e2 = e := by
        injection hb with h2
        exact h2.symm
      subst he2
      rw [hni]
      exact ⟨rfl, rfl⟩

theorem claim4_witness :
    ((NewIterator (toChars "1,x,2...1...2")).seqs = [] ∧
        firstErr (splitComma (toChars "1,x,2...1...2")) = some NumErr.errSyn) ∧
      ((NewIterator (toChars "5,abc")).err = some (IterErr.parseErr NumErr.errSyn) ∧
        (NewIterator (toChars "5,abc")).seqs = []) :=
  ⟨claim4.1 _ NumErr.errSyn (by decide),
    claim4.2.1 (toChars "5,abc") NumErr.errSyn (by decide) (by decide)⟩

/-- Claim C5: the exactly-empty specification constructs a ready iterator
with zero descriptors and no error, and `Parse ""` returns the empty
non-nil sequence with no error; an empty item (as produced by consecutive
commas) is a syntax error. -/
theorem claim5 :
    NewIterator (toChars "") = { seqs := [], err := none }
    ∧ Parse (toChars "") = (some [], none)
    ∧ parseItem [] = Except.error NumErr.errSyn
    ∧ (NewIterator (toChars "3,,4")).err = some (IterErr.parseErr NumErr.errSyn)
    ∧ (NewIterator (toChars ",")).err = some (IterErr.parseErr NumErr.errSyn) :=
  ⟨by decide, by decide, by decide, by decide, by decide⟩

/-- Claim C6: a two-piece item `a...b` yields the descriptor with
`step = +1` when `a < b` and `step = -1` otherwise; equal endpoints yield
`step = -1` and the descriptor emits exactly one value. -/
theorem claim6 :
    (∀ item p1 p2 : List Char, ∀ a b : Int,
        splitEllipsis item = [p1, p2] → Atoi p1 = Except.ok a → Atoi p2 = Except.ok b →
        parseItem item =
          Except.ok { next := a, last := b, step := if a < b then 1 else -1 })
    ∧ (∀ item p1 p2 : List Char, ∀ a : Int,
        splitEllipsis item = [p1, p2] → Atoi p1 = Except.ok a → Atoi p2 = Except.ok a →
        parseItem item = Except.ok { next := a, last := a, step := -1 } ∧
          collectFuel 2 { seqs := [{ next := a, last := a, step := -1 }], err := none } =
            some [a]) := by
  constructor
  · exact parseItem_two
  · intro item p1 p2 a hsp ha hb
    constructor
    · rw [parseItem_two item p1 p2 a a hsp ha hb, if_neg (lt_irrefl a)]
    · have hcol := collect_adequate 2 [{ next := a, last := a, step := -1 }]
        (by
          intro t ht
          simp at ht
          subst ht
          exact Or.inl rfl)
        (by simp [seqLen])
      rw [hcol]
      simp [emitRun_self]

theorem claim6_witness :
    parseItem (toChars "1...2") =
        Except.ok { next := 1, last := 2, step := if (1 : Int) < 2 then 1 else -1 } ∧
      parseItem (toChars "3...3") = Except.ok { next := 3, last := 3, step := -1 } :=
  ⟨claim6.1 (toChars "1...2") (toChars "1") (toChars "2") 1 2 (by decide) (by decide)
      (by decide),
    (claim6.2 (toChars "3...3") (toChars "3") (toChars "3") 3 (by decide) (by decide)
      (by decide)).1⟩

/-- Claim C7: the error slot is absorbing — once it holds a parse failure
or the done sentinel, `Next` panics without mutating anything (no iterator
is returned), a successful `Next` only happens from the ready state and
leaves the slot empty or set to done, and `Err` is a pure read of the
slot. -/
theorem claim7 :
    (∀ i : Iterator, ∀ e : IterErr, i.err = some e → ∃ m, Next i = Except.error m)
    ∧ (∀ i i2 : Iterator, ∀ v : Int, ∀ e2 : Option IterErr,
        Next i = Except.ok ((v, e2), i2) →
        i.err = none ∧ (i2.err = none ∨ i2.err = some IterErr.done))
    ∧ (∀ i : Iterator, Err i = i.err) := by
  refine ⟨?_, ?_, fun i => rfl⟩
  · intro i e h
    cases e with
    | parseErr k =>
      refine ⟨msgInvalid, ?_⟩
      unfold Next
      rw [h]
    | done =>
      refine ⟨msgAfterDone, ?_⟩
      unfold Next
      rw [h]
  · intro i i2 v e2 h
    obtain ⟨seqs, err⟩ := i
    cases err with
    | some e =>
      cases e with
      | parseErr k =>
        rw [next_invalid] at h
        exact absurd h (by simp)
      | done =>
        rw [next_done] at h
        exact absurd h (by simp)
    | none =>
      refine ⟨rfl, ?_⟩
      cases seqs with
      | nil =>
        rw [next_nil] at h
        injection h with h2
        injection h2 with h3 h4
        subst h4
        exact Or.inr rfl
      | cons s rest =>
        rw [next_cons] at h
        split at h
        · injection h with h2
          injection h2 with h3 h4
          subst h4
          exact Or.inl rfl
        · injection h with h2
          injection h2 with h3 h4
          subst h4
          exact Or.inl rfl

theorem claim7_witness :
    (∃ m, Next { seqs := [], err := some IterErr.done } = Except.error m) ∧
      Err { seqs := [], err := some IterErr.done } = some IterErr.done :=
  ⟨claim7.1 { seqs := [], err := some IterErr.done } IterErr.done rfl,
    claim7.2.2 { seqs := [], err := some IterErr.done }⟩

/-- Claim C8 counterexample: it is not true that every descriptor held by
an iterator has `step = +1` or `step = -1`: the single-integer item "5"
produces the descriptor `{next 5, last 5, step 0}` (Go zero value). -/
theorem claim8_counterexample :
    ¬ ∀ spec : List Char, ∀ s ∈ (NewIterator spec).seqs, s.step = 1 ∨ s.step = -1 := by
  intro h
  have h5 := h (toChars "5") { next := 5, last := 5, step := 0 } (by decide)
  rcases h5 with h1 | h1 <;> exact absurd h1 (by decide)

/-- Claim C8 (amended): every descriptor built from an item is well formed
with `step = +1` or `step = -1` for a range item, while a single-integer
descriptor has `step = 0` (the Go zero value, never read) and
`next = last`; a successful `Next` emits the head descriptor's `next` and
either removes the exhausted head or advances only its `next` field by
`step` (so `last` and `step` never change); and advancing moves `next`
strictly closer to `last`. -/
theorem claim8_amended :
    (∀ item : List Char, ∀ s : Seq, parseItem item = Except.ok s →
        GoodSeq s ∧ (s.step = 1 ∨ s.step = -1 ∨ (s.step = 0 ∧ s.next = s.last)))
    ∧ (∀ i i2 : Iterator, ∀ s : Seq, ∀ rest : List Seq, ∀ v : Int,
        ∀ e2 : Option IterErr,
        i.seqs = s :: rest → Next i = Except.ok ((v, e2), i2) →
        v = s.next ∧
          (s.next = s.last → i2.seqs = rest) ∧
          (s.next ≠ s.last → i2.seqs = { s with next := s.next + s.step } :: rest))
    ∧ (∀ s : Seq, GoodSeq s → s.next ≠ s.last →
        (s.last - (s.next + s.step)).natAbs < (s.last - s.next).natAbs) := by
  refine ⟨?_, ?_, fun s hg hne => (goodSeq_advance s hg hne).2⟩
  · intro item s h
    refine ⟨parseItem_good item s h, ?_⟩
    unfold parseItem at h
    split at h
    · split at h
      · exact absurd h (by simp)
      · simp at h
        subst h
        exact Or.inr (Or.inr ⟨rfl, rfl⟩)
    · split at h
      · exact absurd h (by simp)
      · split at h
        · exact absurd h (by simp)
        · simp at h
          subst h
          dsimp only
          split
          · exact Or.inl rfl
          · exact Or.inr (Or.inl rfl)
    · exact absurd h (by simp)
  · intro i i2 s rest v e2 hs h
    obtain ⟨seqs, err⟩ := i
    have hs2 : seqs = s :: rest := hs
    subst hs2
    cases err with
    | some e =>
      cases e with
      | parseErr k =>
        rw [next_invalid] at h
        exact absurd h (by simp)
      | done =>
        rw [next_done] at h
        exact absurd h (by simp)
    | none =>
      rw [next_cons] at h
      by_cases hnl : s.next = s.last
      · rw [if_pos hnl] at h
        injection h with h2
        injection h2 with h3 h4
        injection h3 with h5 h6
        subst h4
        exact ⟨h5.symm, fun _ => rfl, fun hne => absurd hnl hne⟩
      · rw [if_neg hnl] at h
        injection h with h2
        injection h2 with h3 h4
        injection h3 with h5 h6
        subst h4
        exact ⟨h5.symm, fun heq => absurd heq hnl, fun _ => rfl⟩

theorem claim8_amended_witness :
    GoodSeq { next := 4, last := 6, step := 1 } ∧
      ((1 : Int) = 1 ∨ (1 : Int) = -1 ∨ ((1 : Int) = 0 ∧ (4 : Int) = 6)) :=
  claim8_amended.1 (toChars "4...6") { next := 4, last := 6, step := 1 } (by decide)

/-- Claim C9: for every iterator constructed without error, the collection
loop completes with fuel `itMeasure + 1` — one `Next` call per denoted
integer plus one final completing call — producing exactly `itMeasure`
integers; consequently `Parse` never falls into the non-terminating branch
on any input. -/
theorem claim9 (spec : List Char) :
    ((NewIterator spec).err = none →
      ∃ vs : List Int,
        collectFuel (itMeasure (NewIterator spec) + 1) (NewIterator spec) = some vs ∧
          vs.length = itMeasure (NewIterator spec))
    ∧ Parse spec ≠ (none, none) := by
  constructor
  · intro h
    have hgood := newIterator_err_none spec h
    have heta : NewIterator spec = { seqs := (NewIterator spec).seqs, err := none } :=
      iterator_eta _ h
    refine ⟨((NewIterator spec).seqs.map fun s => emitRun s.next s.last).flatten, ?_, ?_⟩
    · conv_lhs => rw [heta]
      exact collect_adequate _ _ (by simpa using hgood) (by simp [itMeasure])
    · simp only [List.length_flatten, List.map_map, itMeasure]
      congr 1
      apply List.map_congr_left
      intro s _
      simp [Function.comp, emitRun_length, seqLen]
  · cases h : (NewIterator spec).err with
    | none =>
      rw [parse_ok spec h]
      simp
    | some e =>
      rw [parse_err spec e h]
      simp

theorem claim9_witness :
    (∃ vs : List Int,
        collectFuel (itMeasure (NewIterator (toChars "1...3,7")) + 1)
            (NewIterator (toChars "1...3,7")) = some vs ∧
          vs.length = itMeasure (NewIterator (toChars "1...3,7"))) ∧
      Parse (toChars "1...3,7") ≠ (none, none) :=
  ⟨(claim9 (toChars "1...3,7")).1 (by decide), (claim9 (toChars "1...3,7")).2⟩

/-- Claim C10: a leading '+' sign is accepted: `"+5"` constructs without
error and `Parse "+5"` returns `[5]` with no error. -/
theorem claim10 :
    (NewIterator (toChars "+5")).err = none ∧ Parse (toChars "+5") = (some [5], none) :=
  ⟨by decide, by decide⟩

end Intlist
